import Mathlib

/-!
Verification of the SuanMing core: a shallow embedding of the
stem-branch (bazi) calculator in `src/api/main.py` and of the
lightweight retrieval engine in `src/api/knowledge_base.py`,
together with proofs of the specified properties.

Modelling conventions:
* Python ints are `ℤ`/`ℕ`; Python floats are modelled by exact
  rationals `ℚ`; fallible Python code returns `Except String`.
* The external collaborators (the `jieba` tokenizer and the
  `lunar_python` calendrical library) are parameters: the tokenizer is
  a pure function `String → List String`, the calendar library is a
  pair of functions supplied to `calculate_bazi`.
* Python's `dict` / `defaultdict` is an association list updated in
  place (first occurrence) and extended at the end, which reproduces
  dict insertion-order semantics; Python's stable `sorted` is the
  stable insertion sort `List.insertionSort`.
* The iteration order of a Python `set` of strings is unspecified
  (hash-dependent), so functions that iterate over `set(jieba.lcut(q))`
  take the deduplicated token sequence as an explicit argument.
-/

namespace SuanMing

/-! ## Knowledge base data model (src/api/knowledge_base.py) -/

/-- Document record: `{"content": ..., "source": ..., "category": ...}`. -/
structure Doc where
  content : String
  source : String
  category : String
deriving DecidableEq, Repr

/-- Result of `search`: a copy of the document dict plus a `"score"` key. -/
structure ScoredDoc where
  doc : Doc
  score : ℕ
deriving DecidableEq, Repr

/-- State of `SimpleKnowledgeBase`: the `documents` list and the inverted
`index` (token → posting list), kept as an association list in key
insertion order. -/
structure KB where
  documents : List Doc
  index : List (String × List ℕ)
deriving DecidableEq, Repr

/-- `SimpleKnowledgeBase.__init__`: empty documents, empty index. -/
def emptyKB : KB := ⟨[], []⟩

/-- Reading `self.index.get(word, [])` from the defaultdict. -/
def indexLookup (idx : List (String × List ℕ)) (w : String) : List ℕ :=
  match idx.find? (fun p => p.1 == w) with
  | some p => p.2
  | none => []

/-- One `self.index[word].append(doc_id)` on the defaultdict: update the
entry for `w` in place, or create it at the end. -/
def indexAppend (idx : List (String × List ℕ)) (w : String) (d : ℕ) :
    List (String × List ℕ) :=
  match idx with
  | [] => [(w, [d])]
  | p :: ps => if p.1 = w then (p.1, p.2 ++ [d]) :: ps else p :: indexAppend ps w d

/-- `SimpleKnowledgeBase.add_documents` restricted to a single document:
assign `doc_id = len(self.documents)`, append the document, and index
each distinct token of `jieba.lcut(doc["content"])` (the per-document
`set(words)` deduplication is `List.dedup`; only membership in the set
is observable through the index). -/
def addDoc (segment : String → List String) (kb : KB) (doc : Doc) : KB :=
  let docId := kb.documents.length
  { documents := kb.documents ++ [doc]
    index := ((segment doc.content).dedup).foldl (fun i w => indexAppend i w docId) kb.index }

/-- `SimpleKnowledgeBase.add_documents`: loop over the batch. -/
def add_documents (segment : String → List String) (kb : KB) (docs : List Doc) : KB :=
  docs.foldl (addDoc segment) kb

/-- One `doc_scores[doc_id] += 1` on the `defaultdict(int)`: bump the
entry in place, or create it (value 1) at the end. -/
def bump : List (ℕ × ℕ) → ℕ → List (ℕ × ℕ)
  | [], d => [(d, 1)]
  | p :: ps, d => if p.1 = d then (p.1, p.2 + 1) :: ps else p :: bump ps d

/-- The accumulation loop of `search`: for each query word, for each
`doc_id` in that word's posting list, bump the score accumulator. -/
def accumScores (idx : List (String × List ℕ)) (queryWords : List String) :
    List (ℕ × ℕ) :=
  queryWords.foldl (fun sc w => (indexLookup idx w).foldl bump sc) []

/-- Comparison used by `sorted(doc_scores.items(), key=lambda x: x[1],
reverse=True)`: higher score first. -/
def scoreGE (p q : ℕ × ℕ) : Prop := q.2 ≤ p.2

instance : DecidableRel scoreGE := fun p q => inferInstanceAs (Decidable (q.2 ≤ p.2))

instance : IsTotal (ℕ × ℕ) scoreGE := ⟨fun p q => Nat.le_total q.2 p.2⟩

instance : IsTrans (ℕ × ℕ) scoreGE := ⟨fun _ _ _ h1 h2 => Nat.le_trans h2 h1⟩

/-- Python's `sorted` is stable; `List.insertionSort` is a stable sort,
so it models `sorted(..., key=lambda x: x[1], reverse=True)` exactly. -/
def sortDesc (l : List (ℕ × ℕ)) : List (ℕ × ℕ) := List.insertionSort scoreGE l

/-- The local variable `sorted_docs` of `search`: the accumulated
`(doc_id, score)` pairs, sorted by score descending (stable), truncated
to `n_results`. -/
def sorted_docs (kb : KB) (queryWords : List String) (nResults : ℕ) :
    List (ℕ × ℕ) :=
  (sortDesc (accumScores kb.index queryWords)).take nResults

/-- The result loop of `search`: for each `(doc_id, score)` pair, read
`self.documents[doc_id]` (an `IndexError` if out of range), copy the
document and attach the score. -/
def buildResults (documents : List Doc) : List (ℕ × ℕ) → Except String (List ScoredDoc)
  | [] => .ok []
  | p :: ps =>
    match documents.get? p.1 with
    | none => .error "IndexError"
    | some d =>
      match buildResults documents ps with
      | .error e => .error e
      | .ok rs => .ok (⟨d, p.2⟩ :: rs)

/-- `SimpleKnowledgeBase.search`.  `queryWords` stands for the iteration
of `set(jieba.lcut(query))` (deduplicated tokens, order unspecified in
Python). -/
def search (kb : KB) (queryWords : List String) (nResults : ℕ) :
    Except String (List ScoredDoc) :=
  buildResults kb.documents (sorted_docs kb queryWords nResults)

/-- Bazi display strings handed to `get_relevant_knowledge`
(`bazi_data['year']` etc. are the four pillar strings). -/
structure BaziData where
  year : String
  month : String
  day : String
  hour : String
deriving DecidableEq, Repr

/-- Query f-string built by `get_relevant_knowledge`. -/
def buildQuery (b : BaziData) : String :=
  "\n        " ++ b.year ++ "年柱 \n        " ++ b.month ++ "月柱 \n        " ++
    b.day ++ "日柱 \n        " ++ b.hour ++ "时柱 \n        命理分析 五行 运势\n        "

/-- Formatting of one result block in `get_relevant_knowledge`. -/
def fmtDoc (r : ScoredDoc) : String :=
  "来源：" ++ r.doc.source ++ "\n分类：" ++ r.doc.category ++ "\n相关度：" ++
    toString r.score ++ "\n内容：" ++ r.doc.content

/-- `SimpleKnowledgeBase.get_relevant_knowledge`: build the query,
call `self.search(query)` with the default `n_results = 5`, join the
formatted blocks with blank lines. -/
def get_relevant_knowledge (segment : String → List String) (kb : KB)
    (bz : BaziData) : Except String String :=
  match search kb ((segment (buildQuery bz)).dedup) 5 with
  | .error e => .error e
  | .ok rs => .ok (String.intercalate "\n\n" (rs.map fmtDoc))

/-! ## Bazi calculator data model (src/api/main.py) -/

/-- The `BirthInfo` pydantic model.  `birth_time` is already validated by
pydantic to be a wall-clock time, so hour and minute are naturals (the
range hypotheses `hour < 24`, `minute < 60` are stated where needed);
latitude and longitude are floats, modelled exactly as rationals. -/
structure BirthInfo where
  year : ℤ
  month : ℤ
  day : ℤ
  hour : ℕ
  minute : ℕ
  latitude : ℚ
  longitude : ℚ
  is_lunar : Bool
  gender : String

/-- One stem-branch pillar, as indices into `HEAVENLY_STEMS` (10 stems)
and `EARTHLY_BRANCHES` (12 branches). -/
structure Pillar where
  stem : ℕ
  branch : ℕ
deriving DecidableEq, Repr

/-- What `lunar_python` yields for a solar date: the year/month/day
pillars (`getYearInGanZhi` etc., as index pairs) plus the lunar display
string. -/
structure SolarPillars where
  yearP : Pillar
  monthP : Pillar
  dayP : Pillar
  lunarDisplay : String

/-- The dict returned by `calculate_bazi`. -/
structure BaziResult where
  year : Pillar
  month : Pillar
  day : Pillar
  hour : Pillar
  solarDate : ℤ × ℤ × ℤ
  lunarDate : String
  localTime : ℕ × ℕ

/-- Validation block at the head of `calculate_bazi`, with the literal
error strings of the source; `currentYear` stands for
`datetime.now().year`. -/
def validateBirth (currentYear : ℤ) (b : BirthInfo) : Except String Unit :=
  if ¬ (1900 ≤ b.year ∧ b.year ≤ currentYear) then .error "年份必须在1900年至今之间"
  else if ¬ (1 ≤ b.month ∧ b.month ≤ 12) then .error "月份必须在1-12之间"
  else if ¬ (1 ≤ b.day ∧ b.day ≤ 31) then .error "日期必须在1-31之间"
  else if ¬ (-90 ≤ b.latitude ∧ b.latitude ≤ 90) then .error "纬度必须在-90到90度之间"
  else if ¬ (-180 ≤ b.longitude ∧ b.longitude ≤ 180) then .error "经度必须在-180到180度之间"
  else .ok ()

/-- The five ranges checked by `calculate_bazi`, as a predicate. -/
def ValidRanges (currentYear : ℤ) (b : BirthInfo) : Prop :=
  (1900 ≤ b.year ∧ b.year ≤ currentYear) ∧ (1 ≤ b.month ∧ b.month ≤ 12) ∧
    (1 ≤ b.day ∧ b.day ≤ 31) ∧ (-90 ≤ b.latitude ∧ b.latitude ≤ 90) ∧
    (-180 ≤ b.longitude ∧ b.longitude ≤ 180)

instance (currentYear : ℤ) (b : BirthInfo) : Decidable (ValidRanges currentYear b) := by
  unfold ValidRanges; infer_instance

/-- `convert_lunar_to_solar`, parameterised by the `lunar_python`
collaborator `lts` (`Lunar.fromYmd(...).getSolar()`); a failure of the
library is re-raised as `ValueError` with the wrapping prefix of the
source. -/
def convert_lunar_to_solar (lts : ℤ → ℤ → ℤ → Except String (ℤ × ℤ × ℤ))
    (year month day : ℤ) : Except String (ℤ × ℤ × ℤ) :=
  match lts year month day with
  | .error e => .error ("农历日期转换失败: " ++ e)
  | .ok v => .ok v

/-- Reference meridian `BEIJING_LONGITUDE` of `beijing_time_to_local_time`. -/
def BEIJING_LONGITUDE : ℚ := 116.4074

/-- `beijing_time_to_local_time`: shift the timestamp (measured in
minutes) by 4 minutes per degree of longitude east of the reference
meridian. -/
def beijing_time_to_local_time (t : ℚ) (longitude : ℚ) : ℚ :=
  t + (longitude - BEIJING_LONGITUDE) * 4

/-- Calendar day index of a timestamp in minutes (1440 minutes per day);
used to observe the day carry of the longitude correction. -/
def dayIndex (t : ℚ) : ℤ := ⌊t / 1440⌋

/-- The `decimal_hour = hour + minute / 60.0` of `get_gz_hour`. -/
def hourDecimal (hour minute : ℕ) : ℚ := (hour : ℚ) + (minute : ℚ) / 60

/-- The `hour_ranges` dict of `get_gz_hour`, in insertion order:
`(branch index, (start, end))`. -/
def hour_ranges : List (ℕ × ℕ × ℕ) :=
  [(0, 23, 1), (1, 1, 3), (2, 3, 5), (3, 5, 7), (4, 7, 9), (5, 9, 11),
   (6, 11, 13), (7, 13, 15), (8, 15, 17), (9, 17, 19), (10, 19, 21), (11, 21, 23)]

/-- The window test `start <= decimal_hour < end` of the loop in
`get_gz_hour`. -/
def gzPred (dh : ℚ) (r : ℕ × ℕ × ℕ) : Bool :=
  decide ((r.2.1 : ℚ) ≤ dh ∧ dh < (r.2.2 : ℚ))

/-- `get_gz_hour`: the midnight wrap test, then the first matching
two-hour window, then the trailing `return 0` default. -/
def get_gz_hour (hour minute : ℕ) : ℕ :=
  let dh := hourDecimal hour minute
  if 23 ≤ dh ∨ dh < 1 then 0
  else
    match hour_ranges.find? (gzPred dh) with
    | some r => r.1
    | none => 0

/-- Hour and minute fields of the corrected `local_datetime`: the civil
time of day is shifted by `beijing_time_to_local_time`, floored to whole
minutes (`datetime.minute` truncates), and reduced modulo one day. -/
def localHM (hour minute : ℕ) (longitude : ℚ) : ℕ × ℕ :=
  let total := beijing_time_to_local_time ((hour * 60 + minute : ℕ) : ℚ) longitude
  let t := (⌊total⌋ % 1440).toNat
  (t / 60, t % 60)

/-- The hour-stem rule of line 181:
`hour_stem_index = (day_stem_index * 2 + hour_branch_index) % 10`. -/
def hourStemIndex (dayStem branch : ℕ) : ℕ := (dayStem * 2 + branch) % 10

/-- `calculate_bazi`, parameterised by `datetime.now().year` and the two
`lunar_python` collaborators: `lts` is the lunar-to-solar conversion and
`stp` is `Solar.fromYmd(...).getLunar()` read back as the three ganzhi
pillars plus the lunar display string.  Any raised error is caught by
the enclosing `except` and re-raised with the prefix `八字计算错误: `.
The second component of the result is the list of argument triples
passed to the lunar-to-solar collaborator (the conversion call log). -/
def calculate_bazi (currentYear : ℤ)
    (lts : ℤ → ℤ → ℤ → Except String (ℤ × ℤ × ℤ))
    (stp : ℤ → ℤ → ℤ → SolarPillars) (b : BirthInfo) :
    Except String BaziResult × List (ℤ × ℤ × ℤ) :=
  match validateBirth currentYear b with
  | .error e => (.error ("八字计算错误: " ++ e), [])
  | .ok _ =>
    let conv : Except String (ℤ × ℤ × ℤ) × List (ℤ × ℤ × ℤ) :=
      if b.is_lunar then
        (convert_lunar_to_solar lts b.year b.month b.day, [(b.year, b.month, b.day)])
      else (.ok (b.year, b.month, b.day), [])
    match conv.1 with
    | .error e => (.error ("八字计算错误: " ++ e), conv.2)
    | .ok (y, m, d) =>
      let lhm := localHM b.hour b.minute b.longitude
      let hourBranchIndex := get_gz_hour lhm.1 lhm.2
      let sp := stp y m d
      let hourStem := hourStemIndex sp.dayP.stem hourBranchIndex
      (.ok { year := sp.yearP, month := sp.monthP, day := sp.dayP,
             hour := ⟨hourStem, hourBranchIndex⟩,
             solarDate := (y, m, d), lunarDate := sp.lunarDisplay,
             localTime := lhm }, conv.2)

/-! ## Lemmas: the inverted index -/

theorem indexLookup_nil (w : String) : indexLookup [] w = [] := rfl

theorem indexLookup_indexAppend_self (idx : List (String × List ℕ)) (w : String) (d : ℕ) :
    indexLookup (indexAppend idx w d) w = indexLookup idx w ++ [d] := by
  induction idx with
  | nil => simp [indexAppend, indexLookup, List.find?]
  | cons p ps ih =>
    by_cases h : p.1 = w
    · simp [indexAppend, h, indexLookup, List.find?]
    · simp only [indexAppend, if_neg h]
      simpa [indexLookup, List.find?_cons, beq_iff_eq, h] using ih

theorem indexLookup_indexAppend_ne (idx : List (String × List ℕ)) {w w' : String} (d : ℕ)
    (hne : w' ≠ w) : indexLookup (indexAppend idx w d) w' = indexLookup idx w' := by
  have hne' : (w == w') = false := beq_eq_false_iff_ne.mpr fun hc => hne hc.symm
  induction idx with
  | nil => simp [indexAppend, indexLookup, List.find?, hne']
  | cons p ps ih =>
    by_cases h : p.1 = w
    · have hpw : ¬ p.1 = w' := by rw [h]; exact fun hc => hne hc.symm
      simp [indexAppend, h, indexLookup, List.find?, hne', hpw]
    · by_cases h' : p.1 = w'
      · simp only [indexAppend, if_neg h]
        simp [indexLookup, List.find?_cons, beq_iff_eq, h']
      · simp only [indexAppend, if_neg h]
        simpa [indexLookup, List.find?_cons, beq_iff_eq, h'] using ih

theorem indexLookup_foldAppend (ws : List String) (hw : ws.Nodup)
    (idx : List (String × List ℕ)) (d : ℕ) (w' : String) :
    indexLookup (ws.foldl (fun i w => indexAppend i w d) idx) w' =
      if w' ∈ ws then indexLookup idx w' ++ [d] else indexLookup idx w' := by
  induction ws generalizing idx with
  | nil => simp
  | cons a ws ih =>
    have ha : a ∉ ws := (List.nodup_cons.mp hw).1
    have hws : ws.Nodup := (List.nodup_cons.mp hw).2
    simp only [List.foldl_cons]
    rw [ih hws]
    by_cases h : w' = a
    · subst h
      simp [ha, indexLookup_indexAppend_self]
    · simp [List.mem_cons, h, indexLookup_indexAppend_ne idx d h]

/-- Well-formedness of a knowledge base: every posting list is strictly
ascending (insertion order, duplicate-free), and a document identifier
is posted under a token exactly when the token occurs among the
document's segmented content. -/
def KB.WF (segment : String → List String) (kb : KB) : Prop :=
  ∀ w : String, (indexLookup kb.index w).Sorted (· < ·) ∧
    ∀ i : ℕ, i ∈ indexLookup kb.index w ↔
      ∃ d, kb.documents.get? i = some d ∧ w ∈ segment d.content

theorem emptyKB_WF (segment : String → List String) : emptyKB.WF segment := by
  intro w
  constructor
  · simp [emptyKB, indexLookup_nil]
  · intro i
    simp [emptyKB, indexLookup_nil]

theorem KB.WF.lt_length {segment : String → List String} {kb : KB} (h : kb.WF segment)
    {w : String} {i : ℕ} (hi : i ∈ indexLookup kb.index w) : i < kb.documents.length := by
  obtain ⟨d, hd, -⟩ := ((h w).2 i).mp hi
  exact List.get?_eq_some.mp hd |>.1

theorem addDoc_WF {segment : String → List String} {kb : KB} (h : kb.WF segment)
    (doc : Doc) : (addDoc segment kb doc).WF segment := by
  intro w
  have hlook : indexLookup (addDoc segment kb doc).index w =
      if w ∈ (segment doc.content).dedup then
        indexLookup kb.index w ++ [kb.documents.length]
      else indexLookup kb.index w := by
    simpa [addDoc] using
      indexLookup_foldAppend ((segment doc.content).dedup) (List.nodup_dedup _)
        kb.index kb.documents.length w
  have hdocs : (addDoc segment kb doc).documents = kb.documents ++ [doc] := rfl
  constructor
  · rw [hlook]
    by_cases hmem : w ∈ (segment doc.content).dedup
    · rw [if_pos hmem]
      rw [List.Sorted, List.pairwise_append]
      refine ⟨(h w).1, List.pairwise_singleton _ _, ?_⟩
      intro a ha b hb
      rw [List.mem_singleton] at hb
      subst hb
      exact h.lt_length ha
    · rw [if_neg hmem]; exact (h w).1
  · intro i
    rw [hlook, hdocs]
    by_cases hmem : w ∈ (segment doc.content).dedup
    · rw [if_pos hmem, List.mem_append, List.mem_singleton]
      constructor
      · rintro (hi | rfl)
        · obtain ⟨d, hd, hwd⟩ := ((h w).2 i).mp hi
          refine ⟨d, ?_, hwd⟩
          rw [List.get?_append (List.get?_eq_some.mp hd).1]
          exact hd
        · refine ⟨doc, ?_, List.mem_dedup.mp hmem⟩
          rw [List.get?_append_right (le_refl _)]
          simp
      · rintro ⟨d, hd, hwd⟩
        by_cases hi : i < kb.documents.length
        · left
          rw [List.get?_append hi] at hd
          exact ((h w).2 i).mpr ⟨d, hd, hwd⟩
        · right
          have hlen : i < kb.documents.length + 1 := by
            have := List.get?_eq_some.mp hd |>.1
            simpa using this
          omega
    · rw [if_neg hmem]
      constructor
      · intro hi
        obtain ⟨d, hd, hwd⟩ := ((h w).2 i).mp hi
        refine ⟨d, ?_, hwd⟩
        rw [List.get?_append (List.get?_eq_some.mp hd).1]
        exact hd
      · rintro ⟨d, hd, hwd⟩
        by_cases hi : i < kb.documents.length
        · rw [List.get?_append hi] at hd
          exact ((h w).2 i).mpr ⟨d, hd, hwd⟩
        · exfalso
          have hlen : i < kb.documents.length + 1 := by
            have := List.get?_eq_some.mp hd |>.1
            simpa using this
          have : i = kb.documents.length := by omega
          subst this
          rw [List.get?_append_right (le_refl _)] at hd
          simp at hd
          subst hd
          exact hmem (List.mem_dedup.mpr hwd)

theorem add_documents_WF {segment : String → List String} {kb : KB} (h : kb.WF segment)
    (docs : List Doc) : (add_documents segment kb docs).WF segment := by
  induction docs generalizing kb with
  | nil => exact h
  | cons d ds ih => exact ih (addDoc_WF h d)

/-! ## Lemmas: the score accumulator of `search` -/

/-- Reading `doc_scores[i]` (0 when absent; stored scores are ≥ 1, so
this is unambiguous). -/
def lookupScore (sc : List (ℕ × ℕ)) (i : ℕ) : ℕ :=
  match sc.find? (fun p => p.1 == i) with
  | some p => p.2
  | none => 0

theorem lookupScore_bump (sc : List (ℕ × ℕ)) (d i : ℕ) :
    lookupScore (bump sc d) i =
      if i = d then lookupScore sc i + 1 else lookupScore sc i := by
  induction sc with
  | nil =>
    by_cases h : i = d
    · subst h; simp [bump, lookupScore, List.find?]
    · have : (d == i) = false := beq_eq_false_iff_ne.mpr fun hc => h hc.symm
      simp [bump, lookupScore, List.find?, this, h]
  | cons p ps ih =>
    by_cases hpd : p.1 = d
    · by_cases h : i = d
      · subst h
        simp [bump, hpd, lookupScore, List.find?]
      · have hpi : (p.1 == i) = false := by
          rw [hpd]; exact beq_eq_false_iff_ne.mpr fun hc => h hc.symm
        have hdi : (d == i) = false := beq_eq_false_iff_ne.mpr fun hc => h hc.symm
        simp [bump, hpd, lookupScore, List.find?, hpi, hdi, h]
    · by_cases hpi : p.1 = i
      · have h : ¬ i = d := fun hc => hpd (hpi.trans hc)
        simp [bump, hpd, lookupScore, List.find?, hpi, h]
      · have hpi' : (p.1 == i) = false := beq_eq_false_iff_ne.mpr hpi
        simpa [bump, hpd, lookupScore, List.find?, hpi'] using ih

theorem keys_bump (sc : List (ℕ × ℕ)) (d : ℕ) :
    (bump sc d).map Prod.fst =
      if d ∈ sc.map Prod.fst then sc.map Prod.fst else sc.map Prod.fst ++ [d] := by
  induction sc with
  | nil => simp [bump]
  | cons p ps ih =>
    by_cases hpd : p.1 = d
    · simp [bump, hpd]
    · have : ¬ d = p.1 := fun hc => hpd hc.symm
      simp only [bump, if_neg hpd, List.map_cons, List.mem_cons, this, false_or]
      rw [ih]
      by_cases h : d ∈ ps.map Prod.fst <;> simp [h]

theorem keysNodup_bump {sc : List (ℕ × ℕ)} (h : (sc.map Prod.fst).Nodup) (d : ℕ) :
    ((bump sc d).map Prod.fst).Nodup := by
  rw [keys_bump]
  by_cases hd : d ∈ sc.map Prod.fst
  · rwa [if_pos hd]
  · rw [if_neg hd]
    rw [List.nodup_append]
    exact ⟨h, List.nodup_singleton _, by simpa using hd⟩

theorem pos_bump {sc : List (ℕ × ℕ)} (h : ∀ p ∈ sc, 0 < p.2) (d : ℕ) :
    ∀ p ∈ bump sc d, 0 < p.2 := by
  induction sc with
  | nil => simp [bump]
  | cons q qs ih =>
    by_cases hqd : q.1 = d
    · simp only [bump, if_pos hqd]
      intro p hp
      rcases List.mem_cons.mp hp with rfl | hp
      · simp
      · exact h p (List.mem_cons_of_mem _ hp)
    · simp only [bump, if_neg hqd]
      intro p hp
      rcases List.mem_cons.mp hp with rfl | hp
      · exact h p (List.mem_cons_self _ _)
      · exact ih (fun q' hq' => h q' (List.mem_cons_of_mem _ hq')) p hp

theorem mem_eq_lookupScore {sc : List (ℕ × ℕ)} (h : (sc.map Prod.fst).Nodup)
    {p : ℕ × ℕ} (hp : p ∈ sc) : p.2 = lookupScore sc p.1 := by
  induction sc with
  | nil => cases hp
  | cons q qs ih =>
    rcases List.mem_cons.mp hp with rfl | hp
    · simp [lookupScore, List.find?]
    · have hq : q.1 ≠ p.1 := by
        intro hc
        have : q.1 ∉ qs.map Prod.fst := (List.nodup_cons.mp (by simpa using h)).1
        exact this (hc ▸ List.mem_map_of_mem Prod.fst hp)
      have hq' : (q.1 == p.1) = false := beq_eq_false_iff_ne.mpr hq
      have := ih (List.nodup_cons.mp (by simpa using h)).2 hp
      simpa [lookupScore, List.find?, hq'] using this

theorem lookupScore_pos_of_mem {sc : List (ℕ × ℕ)} (hpos : ∀ p ∈ sc, 0 < p.2)
    (hnd : (sc.map Prod.fst).Nodup) {p : ℕ × ℕ} (hp : p ∈ sc) :
    0 < lookupScore sc p.1 :=
  mem_eq_lookupScore hnd hp ▸ hpos p hp

theorem lookupScore_foldl_bump (L : List ℕ) (hL : L.Nodup) (sc : List (ℕ × ℕ)) (i : ℕ) :
    lookupScore (L.foldl bump sc) i =
      lookupScore sc i + (if i ∈ L then 1 else 0) := by
  induction L generalizing sc with
  | nil => simp
  | cons a L ih =>
    have ha : a ∉ L := (List.nodup_cons.mp hL).1
    rw [List.foldl_cons, ih (List.nodup_cons.mp hL).2, lookupScore_bump]
    by_cases h : i = a
    · subst h
      simp [ha]
    · simp [List.mem_cons, h]

theorem keysNodup_foldl_bump (L : List ℕ) {sc : List (ℕ × ℕ)}
    (h : (sc.map Prod.fst).Nodup) : ((L.foldl bump sc).map Prod.fst).Nodup := by
  induction L generalizing sc with
  | nil => exact h
  | cons a L ih => exact ih (keysNodup_bump h a)

theorem pos_foldl_bump (L : List ℕ) {sc : List (ℕ × ℕ)}
    (h : ∀ p ∈ sc, 0 < p.2) : ∀ p ∈ L.foldl bump sc, 0 < p.2 := by
  induction L generalizing sc with
  | nil => exact h
  | cons a L ih => exact ih (pos_bump h a)

theorem lookupScore_accumFold (idx : List (String × List ℕ))
    (hidx : ∀ w, (indexLookup idx w).Nodup) (ws : List String) (sc : List (ℕ × ℕ)) (i : ℕ) :
    lookupScore (ws.foldl (fun sc w => (indexLookup idx w).foldl bump sc) sc) i =
      lookupScore sc i + ws.countP (fun w => decide (i ∈ indexLookup idx w)) := by
  induction ws generalizing sc with
  | nil => simp
  | cons a ws ih =>
    rw [List.foldl_cons, ih, lookupScore_foldl_bump _ (hidx a), List.countP_cons]
    by_cases h : i ∈ indexLookup idx a <;> simp [h] <;> omega

theorem lookupScore_accumScores (idx : List (String × List ℕ))
    (hidx : ∀ w, (indexLookup idx w).Nodup) (ws : List String) (i : ℕ) :
    lookupScore (accumScores idx ws) i =
      ws.countP (fun w => decide (i ∈ indexLookup idx w)) := by
  have h := lookupScore_accumFold idx hidx ws [] i
  rw [show lookupScore [] i = 0 from rfl, Nat.zero_add] at h
  exact h

theorem keysNodup_accumScores (idx : List (String × List ℕ)) (ws : List String) :
    ((accumScores idx ws).map Prod.fst).Nodup := by
  unfold accumScores
  generalize hsc : ([] : List (ℕ × ℕ)) = sc
  have h : (sc.map Prod.fst).Nodup := by rw [← hsc]; simp
  clear hsc
  induction ws generalizing sc with
  | nil => exact h
  | cons a ws ih => exact ih _ (keysNodup_foldl_bump _ h)

theorem pos_accumScores (idx : List (String × List ℕ)) (ws : List String) :
    ∀ p ∈ accumScores idx ws, 0 < p.2 := by
  unfold accumScores
  generalize hsc : ([] : List (ℕ × ℕ)) = sc
  have h : ∀ p ∈ sc, 0 < p.2 := by rw [← hsc]; simp
  clear hsc
  induction ws generalizing sc with
  | nil => exact h
  | cons a ws ih => exact ih _ (pos_foldl_bump _ h)

theorem score_eq_countP {idx : List (String × List ℕ)}
    (hidx : ∀ w, (indexLookup idx w).Nodup) {ws : List String} {p : ℕ × ℕ}
    (hp : p ∈ accumScores idx ws) :
    p.2 = ws.countP (fun w => decide (p.1 ∈ indexLookup idx w)) := by
  rw [mem_eq_lookupScore (keysNodup_accumScores idx ws) hp,
    lookupScore_accumScores idx hidx ws p.1]

/-! ## Lemmas: the stable sort and the result loop of `search` -/

theorem sortDesc_perm (l : List (ℕ × ℕ)) : List.Perm (sortDesc l) l :=
  List.perm_insertionSort scoreGE l

theorem sortDesc_sorted (l : List (ℕ × ℕ)) : List.Sorted scoreGE (sortDesc l) :=
  List.sorted_insertionSort scoreGE l

/-- A stable sort leaves a list whose keys are all equal unchanged. -/
theorem sortDesc_const {l : List (ℕ × ℕ)} {c : ℕ} (h : ∀ p ∈ l, p.2 = c) :
    sortDesc l = l := by
  induction l with
  | nil => rfl
  | cons p ps ih =>
    have hps : ∀ q ∈ ps, q.2 = c := fun q hq => h q (List.mem_cons_of_mem _ hq)
    have h2 : sortDesc ps = ps := ih hps
    show List.orderedInsert scoreGE p (List.insertionSort scoreGE ps) = p :: ps
    rw [show List.insertionSort scoreGE ps = sortDesc ps from rfl, h2]
    cases ps with
    | nil => rfl
    | cons q qs =>
      have hle : scoreGE p q := by
        unfold scoreGE
        rw [h p (List.mem_cons_self _ _), hps q (List.mem_cons_self _ _)]
      exact List.orderedInsert_of_le _ _ hle

theorem mem_sorted_docs {kb : KB} {qws : List String} {n : ℕ} {p : ℕ × ℕ}
    (hp : p ∈ sorted_docs kb qws n) : p ∈ accumScores kb.index qws :=
  (sortDesc_perm _).mem_iff.mp ((List.take_sublist _ _).mem hp)

theorem KB.WF.lookup_nodup {segment : String → List String} {kb : KB}
    (h : kb.WF segment) (w : String) : (indexLookup kb.index w).Nodup :=
  ((h w).1).imp fun hlt => Nat.ne_of_lt hlt

theorem accum_id_lt {segment : String → List String} {kb : KB} (hWF : kb.WF segment)
    {qws : List String} {p : ℕ × ℕ} (hp : p ∈ accumScores kb.index qws) :
    p.1 < kb.documents.length := by
  have hpos : 0 < p.2 := pos_accumScores _ _ p hp
  have hcnt := score_eq_countP (hWF.lookup_nodup) hp
  rw [hcnt] at hpos
  obtain ⟨w, -, hw⟩ := List.countP_pos.mp hpos
  exact hWF.lt_length (of_decide_eq_true hw)

theorem buildResults_ok (docs : List Doc) (ps : List (ℕ × ℕ))
    (h : ∀ p ∈ ps, p.1 < docs.length) :
    ∃ rs, buildResults docs ps = .ok rs ∧
      rs.map ScoredDoc.score = ps.map Prod.snd ∧
      ∀ r ∈ rs, ∃ p ∈ ps, docs.get? p.1 = some r.doc ∧ r.score = p.2 := by
  induction ps with
  | nil => exact ⟨[], rfl, rfl, by simp⟩
  | cons p ps ih =>
    obtain ⟨d, hd⟩ : ∃ d, docs.get? p.1 = some d :=
      List.get?_eq_get (h p (List.mem_cons_self _ _)) ▸ ⟨_, rfl⟩
    obtain ⟨rs, hrs, hmap, hmem⟩ := ih fun q hq => h q (List.mem_cons_of_mem _ hq)
    refine ⟨⟨d, p.2⟩ :: rs, ?_, ?_, ?_⟩
    · simp only [buildResults, hd, hrs]
    · simp [hmap]
    · intro r hr
      rcases List.mem_cons.mp hr with rfl | hr
      · exact ⟨p, List.mem_cons_self _ _, hd, rfl⟩
      · obtain ⟨q, hq, hq1, hq2⟩ := hmem r hr
        exact ⟨q, List.mem_cons_of_mem _ hq, hq1, hq2⟩

/-- The workhorse: on a well-formed knowledge base `search` always
succeeds, and the returned records carry exactly the scores of the
sorted, truncated accumulator. -/
theorem search_ok {segment : String → List String} {kb : KB} (hWF : kb.WF segment)
    (qws : List String) (n : ℕ) :
    ∃ rs, search kb qws n = .ok rs ∧
      rs.map ScoredDoc.score = (sorted_docs kb qws n).map Prod.snd ∧
      ∀ r ∈ rs, ∃ p ∈ sorted_docs kb qws n,
        kb.documents.get? p.1 = some r.doc ∧ r.score = p.2 := by
  exact buildResults_ok kb.documents (sorted_docs kb qws n)
    fun p hp => accum_id_lt hWF (mem_sorted_docs hp)

theorem fold_batches_WF (segment : String → List String) (batches : List (List Doc)) :
    (batches.foldl (add_documents segment) emptyKB).WF segment := by
  have h : ∀ (kb : KB), kb.WF segment → (batches.foldl (add_documents segment) kb).WF segment := by
    induction batches with
    | nil => exact fun kb h => h
    | cons b bs ih => exact fun kb h => ih _ (add_documents_WF h b)
  exact h emptyKB (emptyKB_WF segment)

theorem accumScores_nil_index (qws : List String) : accumScores [] qws = [] := by
  have h : ∀ sc : List (ℕ × ℕ), qws.foldl (fun sc w => (indexLookup [] w).foldl bump sc) sc = sc := by
    induction qws with
    | nil => exact fun _ => rfl
    | cons a ws ih => intro sc; rw [List.foldl_cons, indexLookup_nil]; exact ih sc
  exact h []

theorem bump_fresh {sc : List (ℕ × ℕ)} {a : ℕ} (h : a ∉ sc.map Prod.fst) :
    bump sc a = sc ++ [(a, 1)] := by
  induction sc with
  | nil => rfl
  | cons p ps ih =>
    have hpa : ¬ p.1 = a := fun hc => h (by simp [hc.symm])
    simp only [bump, if_neg hpa, List.cons_append]
    rw [ih fun hc => h (by simp [List.mem_cons]; right; simpa using hc)]

theorem foldl_bump_fresh (L : List ℕ) (sc : List (ℕ × ℕ))
    (hfresh : ∀ a ∈ L, a ∉ sc.map Prod.fst) (hL : L.Nodup) :
    L.foldl bump sc = sc ++ L.map (fun i => (i, 1)) := by
  induction L generalizing sc with
  | nil => simp
  | cons a L ih =>
    rw [List.foldl_cons, bump_fresh (hfresh a (List.mem_cons_self _ _)),
      ih (sc ++ [(a, 1)])]
    · simp
    · intro b hb
      have hbne : b ≠ a := fun hc => (List.nodup_cons.mp hL).1 (hc ▸ hb)
      have := hfresh b (List.mem_cons_of_mem _ hb)
      simp [this, hbne]
    · exact (List.nodup_cons.mp hL).2

theorem accumScores_single {idx : List (String × List ℕ)} {w : String}
    (hnd : (indexLookup idx w).Nodup) :
    accumScores idx [w] = (indexLookup idx w).map (fun i => (i, 1)) := by
  unfold accumScores
  rw [List.foldl_cons, List.foldl_nil]
  simpa using foldl_bump_fresh (indexLookup idx w) [] (by simp) hnd

/-! ## Claims about the retrieval engine -/

/-- C8: after any sequence of `add_documents` calls, every posting list
is duplicate-free and in ascending insertion order, and a document's
identifier is posted under a token exactly when the token occurs at
least once among the segmented tokens of the document's content,
however often it repeats there (the per-document `set(words)`
deduplication makes repetition invisible). -/
theorem C8_index_invariant (segment : String → List String)
    (batches : List (List Doc)) (w : String) (i : ℕ) :
    (indexLookup (batches.foldl (add_documents segment) emptyKB).index w).Sorted (· < ·) ∧
    (indexLookup (batches.foldl (add_documents segment) emptyKB).index w).Nodup ∧
    (i ∈ indexLookup (batches.foldl (add_documents segment) emptyKB).index w ↔
      ∃ d, (batches.foldl (add_documents segment) emptyKB).documents.get? i = some d ∧
        w ∈ segment d.content) := by
  have hWF := fold_batches_WF segment batches
  exact ⟨(hWF w).1, hWF.lookup_nodup w, (hWF w).2 i⟩

/-- C7: on any knowledge base built by `add_documents`, `search` returns
at most `n_results` records; every returned record's score is at least 1
and equals the number of (distinct) query tokens occurring among the
segmented tokens of that document's content; a document sharing no token
with the query never appears in the results. -/
theorem C7_search_scores (segment : String → List String) (docs : List Doc)
    (qws : List String) (n : ℕ) (hq : qws.Nodup) :
    ∃ rs, search (add_documents segment emptyKB docs) qws n = .ok rs ∧
      rs.length ≤ n ∧
      (∀ r ∈ rs, 1 ≤ r.score ∧
        r.score = qws.countP (fun w => decide (w ∈ segment r.doc.content))) ∧
      (∀ dc ∈ (add_documents segment emptyKB docs).documents,
        (∀ w ∈ qws, w ∉ segment dc.content) → ∀ r ∈ rs, r.doc ≠ dc) := by
  have hWF : (add_documents segment emptyKB docs).WF segment :=
    add_documents_WF (emptyKB_WF segment) docs
  obtain ⟨rs, hrs, hmap, hmem⟩ := search_ok hWF qws n
  have hscore : ∀ r ∈ rs, 1 ≤ r.score ∧
      r.score = qws.countP (fun w => decide (w ∈ segment r.doc.content)) := by
    intro r hr
    obtain ⟨p, hp, hget, hsc⟩ := hmem r hr
    have hpacc := mem_sorted_docs hp
    have hpos : 0 < p.2 := pos_accumScores _ _ p hpacc
    have hcnt := score_eq_countP hWF.lookup_nodup hpacc
    have hiff : ∀ w ∈ qws,
        decide (p.1 ∈ indexLookup (add_documents segment emptyKB docs).index w) =
          decide (w ∈ segment r.doc.content) := by
      intro w _
      apply decide_eq_decide.mpr
      rw [(hWF w).2 p.1]
      constructor
      · rintro ⟨d, hd, hwd⟩
        rw [hget] at hd
        cases hd
        exact hwd
      · intro hwd
        exact ⟨r.doc, hget, hwd⟩
    constructor
    · rw [hsc]; omega
    · rw [hsc, hcnt]
      exact List.countP_congr fun w hw => by rw [hiff w hw]
  refine ⟨rs, hrs, ?_, hscore, ?_⟩
  · have h1 : rs.length = (sorted_docs (add_documents segment emptyKB docs) qws n).length := by
      have := congrArg List.length hmap
      simpa using this
    rw [h1]
    exact (List.length_take _ _).le.trans (by simp)
  · intro dc _ hnone r hr hrd
    obtain ⟨h1, h2⟩ := hscore r hr
    rw [hrd] at h2
    have : qws.countP (fun w => decide (w ∈ segment dc.content)) = 0 := by
      rw [List.countP_eq_zero]
      intro w hw
      simpa using hnone w hw
    omega

/-- C9: the retrieval path is total.  On any knowledge base built by
`add_documents`, `search` returns an ordered list (never the error case);
an empty corpus yields `[]` for every query, and an empty query yields
`[]` on every knowledge base. -/
theorem C9_search_totality (segment : String → List String) (docs : List Doc)
    (qws : List String) (n : ℕ) :
    (∃ rs, search (add_documents segment emptyKB docs) qws n = .ok rs) ∧
    search (add_documents segment emptyKB []) qws n = .ok [] ∧
    search (add_documents segment emptyKB docs) [] n = .ok [] := by
  have hWF : (add_documents segment emptyKB docs).WF segment :=
    add_documents_WF (emptyKB_WF segment) docs
  refine ⟨?_, ?_, ?_⟩
  · obtain ⟨rs, hrs, -⟩ := search_ok hWF qws n
    exact ⟨rs, hrs⟩
  · show search emptyKB qws n = .ok []
    unfold search sorted_docs
    rw [show emptyKB.index = [] from rfl, accumScores_nil_index,
      show sortDesc [] = [] from rfl, List.take_nil]
    rfl
  · unfold search sorted_docs
    rw [show accumScores (add_documents segment emptyKB docs).index [] = [] from rfl,
      show sortDesc [] = [] from rfl, List.take_nil]
    rfl

theorem buildResults_scores {docs : List Doc} {ps : List (ℕ × ℕ)} {rs : List ScoredDoc}
    (h : buildResults docs ps = .ok rs) :
    rs.map ScoredDoc.score = ps.map Prod.snd := by
  induction ps generalizing rs with
  | nil =>
    cases h
    rfl
  | cons p ps ih =>
    unfold buildResults at h
    cases hget : docs.get? p.1 with
    | none => rw [hget] at h; cases h
    | some d =>
      rw [hget] at h
      cases hps : buildResults docs ps with
      | error e => rw [hps] at h; cases h
      | ok rs' =>
        rw [hps] at h
        cases h
        simpa using ih hps

/-- Tokenizer used for the concrete ranking counterexample: the four
documents have pairwise distinct contents tokenising to a single token
each, so that the posting lists are `"a" ↦ [1, 3]` and `"b" ↦ [0, 2]`. -/
def segX : String → List String := fun s =>
  if s = "c0" then ["b"]
  else if s = "c1" then ["a"]
  else if s = "c2" then ["b"]
  else if s = "c3" then ["a"]
  else []

/-- Corpus for the ranking counterexample. -/
def docsX : List Doc :=
  [⟨"c0", "s0", "k0"⟩, ⟨"c1", "s1", "k1"⟩, ⟨"c2", "s2", "k2"⟩, ⟨"c3", "s3", "k3"⟩]

/-- Knowledge base of the ranking counterexample. -/
def kbX : KB := add_documents segX emptyKB docsX

/-- C1, corrected: the order claimed by the spec — score descending with
ties broken by ascending document identifier — fails.  In `kbX` all four
documents tie at score 1 for a two-token query, yet whichever way the
query token set is iterated the tie order follows the accumulator's
first-match order (document 1 before document 0, or 2 before 1), not
ascending identifiers. -/
theorem C1_counterexample :
    ¬ ((sorted_docs kbX ["a", "b"] 5).Pairwise
        (fun p q => q.2 < p.2 ∨ (p.2 = q.2 ∧ p.1 < q.1))) ∧
    ¬ ((sorted_docs kbX ["b", "a"] 5).Pairwise
        (fun p q => q.2 < p.2 ∨ (p.2 = q.2 ∧ p.1 < q.1))) := by
  constructor
  · rw [show sorted_docs kbX ["a", "b"] 5 = [(1, 1), (3, 1), (0, 1), (2, 1)] from by decide]
    intro h
    have := (List.pairwise_cons.mp ((List.pairwise_cons.mp h).2)).1 (0, 1) (by simp)
    omega
  · rw [show sorted_docs kbX ["b", "a"] 5 = [(0, 1), (2, 1), (1, 1), (3, 1)] from by decide]
    intro h
    have := (List.pairwise_cons.mp ((List.pairwise_cons.mp h).2)).1 (1, 1) (by simp)
    omega

/-- C1, amended: `search` output is ordered by score descending; ties are
broken by the stable sort in accumulator insertion order (the order in
which documents first match an iterated query token), which coincides
with ascending document identifier for a single-token query since each
posting list is ascending; and for a fixed token sequence two runs of
`search` return identical results (it is a pure function). -/
theorem C1_ranking_order (segment : String → List String) (docs : List Doc)
    (qws : List String) (n : ℕ) (w : String) :
    (∀ rs, search (add_documents segment emptyKB docs) qws n = .ok rs →
        (rs.map ScoredDoc.score).Sorted (· ≥ ·)) ∧
    sorted_docs (add_documents segment emptyKB docs) [w] n =
      ((indexLookup (add_documents segment emptyKB docs).index w).map
        (fun i => (i, 1))).take n ∧
    (sorted_docs (add_documents segment emptyKB docs) [w] n).Pairwise
      (fun p q => p.1 < q.1) ∧
    search (add_documents segment emptyKB docs) qws n =
      search (add_documents segment emptyKB docs) qws n := by
  have hWF : (add_documents segment emptyKB docs).WF segment :=
    add_documents_WF (emptyKB_WF segment) docs
  have hsingle : sorted_docs (add_documents segment emptyKB docs) [w] n =
      ((indexLookup (add_documents segment emptyKB docs).index w).map
        (fun i => (i, 1))).take n := by
    unfold sorted_docs
    rw [accumScores_single (hWF.lookup_nodup w), sortDesc_const (c := 1) (by simp)]
  refine ⟨?_, hsingle, ?_, rfl⟩
  · intro rs hrs
    rw [buildResults_scores hrs]
    have hp : List.Pairwise scoreGE
        (sorted_docs (add_documents segment emptyKB docs) qws n) :=
      (sortDesc_sorted _).sublist (List.take_sublist _ _)
    rw [List.Sorted, List.pairwise_map]
    exact hp.imp fun h => h
  · rw [hsingle]
    have hsorted : (indexLookup (add_documents segment emptyKB docs).index w).Sorted
        (· < ·) := (hWF w).1
    have hmapped : (((indexLookup (add_documents segment emptyKB docs).index w).map
        (fun i => (i, 1))) : List (ℕ × ℕ)).Pairwise (fun p q => p.1 < q.1) := by
      rw [List.pairwise_map]
      exact hsorted.imp fun h => h
    exact hmapped.sublist (List.take_sublist _ _)

/-- Witness for C1: a concrete run on `kbX` exhibiting the amended
ordering facts. -/
theorem C1_ranking_order_witness :
    (∀ rs, search (add_documents segX emptyKB docsX) ["a", "b"] 5 = .ok rs →
        (rs.map ScoredDoc.score).Sorted (· ≥ ·)) ∧
    sorted_docs (add_documents segX emptyKB docsX) ["a"] 5 =
      ((indexLookup (add_documents segX emptyKB docsX).index "a").map
        (fun i => (i, 1))).take 5 ∧
    (sorted_docs (add_documents segX emptyKB docsX) ["a"] 5).Pairwise
      (fun p q => p.1 < q.1) ∧
    search (add_documents segX emptyKB docsX) ["a", "b"] 5 =
      search (add_documents segX emptyKB docsX) ["a", "b"] 5 :=
  C1_ranking_order segX docsX ["a", "b"] 5 "a"

/-- Witness for C7: a concrete search on the counterexample corpus. -/
theorem C7_search_scores_witness :
    ∃ rs, search (add_documents segX emptyKB docsX) ["a", "b"] 3 = .ok rs ∧
      rs.length ≤ 3 ∧
      (∀ r ∈ rs, 1 ≤ r.score ∧
        r.score = (["a", "b"] : List String).countP
          (fun w => decide (w ∈ segX r.doc.content))) ∧
      (∀ dc ∈ (add_documents segX emptyKB docsX).documents,
        (∀ w ∈ (["a", "b"] : List String), w ∉ segX dc.content) →
          ∀ r ∈ rs, r.doc ≠ dc) :=
  C7_search_scores segX docsX ["a", "b"] 3 (by decide)

/-- C10: the knowledge composer calls the ranker with the fixed limit 5,
renders each ranked result through `fmtDoc` (source, category, match
score, full content), joins the blocks with blank lines in ranked order,
and yields the empty string — not an error — when nothing matches. -/
theorem C10_compose_knowledge (segment : String → List String) (docs : List Doc)
    (bz : BaziData) :
    ∃ rs, search (add_documents segment emptyKB docs)
        ((segment (buildQuery bz)).dedup) 5 = .ok rs ∧
      rs.length ≤ 5 ∧
      get_relevant_knowledge segment (add_documents segment emptyKB docs) bz =
        .ok (String.intercalate "\n\n" (rs.map fmtDoc)) ∧
      (rs = [] →
        get_relevant_knowledge segment (add_documents segment emptyKB docs) bz = .ok "") := by
  have hWF : (add_documents segment emptyKB docs).WF segment :=
    add_documents_WF (emptyKB_WF segment) docs
  obtain ⟨rs, hrs, hmap, -⟩ := search_ok hWF ((segment (buildQuery bz)).dedup) 5
  have hout : get_relevant_knowledge segment (add_documents segment emptyKB docs) bz =
      .ok (String.intercalate "\n\n" (rs.map fmtDoc)) := by
    unfold get_relevant_knowledge
    rw [hrs]
  refine ⟨rs, hrs, ?_, hout, ?_⟩
  · have h1 : rs.length =
        (sorted_docs (add_documents segment emptyKB docs)
          ((segment (buildQuery bz)).dedup) 5).length := by
      have := congrArg List.length hmap
      simpa using this
    rw [h1]
    exact (List.length_take _ _).le.trans (by simp)
  · intro hnil
    rw [hout, hnil]
    rfl

/-! ## Lemmas: the hour-branch windows of `get_gz_hour` -/

theorem hourDecimal_eq (h m : ℕ) : hourDecimal h m = ((60 * h + m : ℕ) : ℚ) / 60 := by
  unfold hourDecimal
  push_cast
  ring

theorem le_hourDecimal_iff (a h m : ℕ) :
    ((a : ℚ) ≤ hourDecimal h m) ↔ 60 * a ≤ 60 * h + m := by
  rw [hourDecimal_eq, le_div_iff (show (0 : ℚ) < 60 by norm_num),
    show ((a : ℚ) * 60) = ((60 * a : ℕ) : ℚ) by push_cast; ring]
  exact Nat.cast_le

theorem hourDecimal_lt_iff (h m b : ℕ) :
    (hourDecimal h m < (b : ℚ)) ↔ 60 * h + m < 60 * b := by
  rw [hourDecimal_eq, div_lt_iff (show (0 : ℚ) < 60 by norm_num),
    show ((b : ℚ) * 60) = ((60 * b : ℕ) : ℚ) by push_cast; ring]
  exact Nat.cast_lt

theorem gzPred_true {dh : ℚ} {k a b : ℕ} (h1 : (a : ℚ) ≤ dh) (h2 : dh < (b : ℚ)) :
    gzPred dh (k, a, b) = true := by
  unfold gzPred
  exact decide_eq_true ⟨h1, h2⟩

theorem gzPred_false_left {dh : ℚ} {k a b : ℕ} (h : dh < (a : ℚ)) :
    gzPred dh (k, a, b) = false := by
  unfold gzPred
  exact decide_eq_false fun hc => absurd hc.1 (not_le.mpr h)

theorem gzPred_false_right {dh : ℚ} {k a b : ℕ} (h : (b : ℚ) ≤ dh) :
    gzPred dh (k, a, b) = false := by
  unfold gzPred
  exact decide_eq_false fun hc => absurd hc.2 (not_lt.mpr h)

theorem find?_skip {α : Type} {p : α → Bool} {a : α} {l : List α} (h : p a = false) :
    List.find? p (a :: l) = List.find? p l :=
  List.find?_cons_of_neg l (by simp [h])

theorem find?_hit {α : Type} {p : α → Bool} {a : α} {l : List α} (h : p a = true) :
    List.find? p (a :: l) = some a :=
  List.find?_cons_of_pos l h

theorem get_gz_hour_midnight {h m : ℕ}
    (hc : 23 ≤ hourDecimal h m ∨ hourDecimal h m < 1) : get_gz_hour h m = 0 := by
  simp only [get_gz_hour]
  rw [if_pos hc]

theorem get_gz_hour_window {h m i : ℕ} (hi1 : 1 ≤ i) (hi2 : i ≤ 11)
    (hlo : 2 * (i : ℚ) - 1 ≤ hourDecimal h m)
    (hhi : hourDecimal h m < 2 * (i : ℚ) + 1) :
    get_gz_hour h m = i := by
  interval_cases i <;>
  · norm_num at hlo hhi
    simp only [get_gz_hour]
    rw [if_neg (by rintro (hc | hc) <;> linarith)]
    simp only [hour_ranges]
    repeat
      first
      | rw [find?_hit (gzPred_true (by push_cast; linarith) (by push_cast; linarith))]
      | rw [find?_skip (gzPred_false_left (by push_cast; linarith))]
      | rw [find?_skip (gzPred_false_right (by push_cast; linarith))]

theorem hour_ranges_find?_isSome {h m : ℕ}
    (hnot : ¬ (23 ≤ hourDecimal h m ∨ hourDecimal h m < 1)) :
    (hour_ranges.find? (gzPred (hourDecimal h m))).isSome := by
  push_neg at hnot
  obtain ⟨hlt23, hge1⟩ := hnot
  have hn1 : 60 ≤ 60 * h + m := by
    have := (le_hourDecimal_iff 1 h m).mp (by exact_mod_cast hge1)
    omega
  have hn2 : 60 * h + m < 1380 := by
    have := (hourDecimal_lt_iff h m 23).mp (by exact_mod_cast hlt23)
    omega
  set n := 60 * h + m with hn
  set i := (n + 60) / 120 with hi
  have hi1 : 1 ≤ i := by omega
  have hi2 : i ≤ 11 := by omega
  have hlo' : 120 * i ≤ n + 60 := by omega
  have hhi' : n + 60 < 120 * i + 120 := by omega
  have hlo : 2 * (i : ℚ) - 1 ≤ hourDecimal h m := by
    rw [hourDecimal_eq, le_div_iff (show (0 : ℚ) < 60 by norm_num)]
    have hc : ((120 * i : ℕ) : ℚ) ≤ ((n + 60 : ℕ) : ℚ) := Nat.cast_le.mpr hlo'
    rw [hn] at hc
    push_cast at hc ⊢
    linarith
  have hhi : hourDecimal h m < 2 * (i : ℚ) + 1 := by
    rw [hourDecimal_eq, div_lt_iff (show (0 : ℚ) < 60 by norm_num)]
    have hc : ((n + 60 : ℕ) : ℚ) < ((120 * i + 120 : ℕ) : ℚ) := Nat.cast_lt.mpr hhi'
    rw [hn] at hc
    push_cast at hc ⊢
    linarith
  cases hfind : hour_ranges.find? (gzPred (hourDecimal h m)) with
  | some r => simp
  | none =>
    exfalso
    have h0 : get_gz_hour h m = 0 := by
      simp only [get_gz_hour]
      rw [if_neg (by push_neg; exact ⟨hlt23, hge1⟩), hfind]
    have hw := get_gz_hour_window hi1 hi2 hlo hhi
    omega

/-! ## Claims about the bazi calculator's time handling -/

/-- C5: for wall-clock inputs, `get_gz_hour` returns branch 0 exactly on
the midnight wrap (decimal hour ≥ 23 or < 1, so 23:00 and 00:00 both map
to branch 0), returns branch `i` on the two-hour window
`[2i−1, 2i+1)` for `1 ≤ i ≤ 11`, and the trailing `return 0` default is
unreachable: outside the midnight wrap the window scan always finds a
match. -/
theorem C5_hour_branch (h m : ℕ) (hh : h < 24) (hm : m < 60) :
    (23 ≤ hourDecimal h m ∨ hourDecimal h m < 1 → get_gz_hour h m = 0) ∧
    (get_gz_hour 23 0 = 0 ∧ get_gz_hour 0 0 = 0) ∧
    (∀ i : ℕ, 1 ≤ i → i ≤ 11 → 2 * (i : ℚ) - 1 ≤ hourDecimal h m →
      hourDecimal h m < 2 * (i : ℚ) + 1 → get_gz_hour h m = i) ∧
    (¬ (23 ≤ hourDecimal h m ∨ hourDecimal h m < 1) →
      (hour_ranges.find? (gzPred (hourDecimal h m))).isSome) := by
  refine ⟨get_gz_hour_midnight, ⟨?_, ?_⟩,
    fun i hi1 hi2 hlo hhi => get_gz_hour_window hi1 hi2 hlo hhi,
    hour_ranges_find?_isSome⟩
  · exact get_gz_hour_midnight (Or.inl (by norm_num [hourDecimal]))
  · exact get_gz_hour_midnight (Or.inr (by norm_num [hourDecimal]))

/-- Witness for C5: 13:30 falls in the eighth window (branch 7, wei). -/
theorem C5_hour_branch_witness : get_gz_hour 13 30 = 7 :=
  (C5_hour_branch 13 30 (by norm_num) (by norm_num)).2.2.1 7 (by norm_num) (by norm_num)
    (by norm_num [hourDecimal]) (by norm_num [hourDecimal])

/-- C6: the solar-time normaliser adds `(longitude − 116.4074) × 4`
minutes to the timestamp; it is total and pure by construction, the
shift is linear and antisymmetric in the longitude offset from the
reference meridian, and it can carry the result into the adjacent
calendar day (23:59 at longitude 180 lands on the next day). -/
theorem C6_longitude_correction (t lon : ℚ) (h1 : -180 ≤ lon) (h2 : lon ≤ 180) :
    beijing_time_to_local_time t lon = t + (lon - 116.4074) * 4 ∧
    beijing_time_to_local_time t lon - t = (lon - BEIJING_LONGITUDE) * 4 ∧
    beijing_time_to_local_time t lon - beijing_time_to_local_time t BEIJING_LONGITUDE =
      -(beijing_time_to_local_time t (2 * BEIJING_LONGITUDE - lon)) +
        beijing_time_to_local_time t BEIJING_LONGITUDE ∧
    dayIndex (beijing_time_to_local_time 1439 180) = dayIndex 1439 + 1 := by
  refine ⟨rfl, by unfold beijing_time_to_local_time; ring,
    by unfold beijing_time_to_local_time; ring, ?_⟩
  norm_num [dayIndex, beijing_time_to_local_time, BEIJING_LONGITUDE]

/-- Witness for C6 at the Greenwich meridian. -/
theorem C6_longitude_correction_witness :
    beijing_time_to_local_time 0 0 = 0 + (0 - 116.4074) * 4 :=
  (C6_longitude_correction 0 0 (by norm_num) (by norm_num)).1

/-! ## Claims about validation and error propagation -/

theorem validateBirth_error_of_invalid {currentYear : ℤ} {b : BirthInfo}
    (hbad : ¬ ValidRanges currentYear b) :
    ∃ msg, validateBirth currentYear b = .error msg ∧
      msg ∈ ["年份必须在1900年至今之间", "月份必须在1-12之间", "日期必须在1-31之间",
             "纬度必须在-90到90度之间", "经度必须在-180到180度之间"] := by
  unfold ValidRanges at hbad
  by_cases h1 : 1900 ≤ b.year ∧ b.year ≤ currentYear
  · by_cases h2 : 1 ≤ b.month ∧ b.month ≤ 12
    · by_cases h3 : 1 ≤ b.day ∧ b.day ≤ 31
      · by_cases h4 : -90 ≤ b.latitude ∧ b.latitude ≤ 90
        · by_cases h5 : -180 ≤ b.longitude ∧ b.longitude ≤ 180
          · exact absurd ⟨h1, h2, h3, h4, h5⟩ hbad
          · exact ⟨"经度必须在-180到180度之间", by simp [validateBirth, h1, h2, h3, h4, h5],
              by simp⟩
        · exact ⟨"纬度必须在-90到90度之间", by simp [validateBirth, h1, h2, h3, h4], by simp⟩
      · exact ⟨"日期必须在1-31之间", by simp [validateBirth, h1, h2, h3], by simp⟩
    · exact ⟨"月份必须在1-12之间", by simp [validateBirth, h1, h2], by simp⟩
  · exact ⟨"年份必须在1900年至今之间", by simp [validateBirth, h1], by simp⟩

theorem validateBirth_ok {currentYear : ℤ} {b : BirthInfo}
    (hv : ValidRanges currentYear b) : validateBirth currentYear b = .ok () := by
  obtain ⟨h1, h2, h3, h4, h5⟩ := hv
  simp [validateBirth, h1, h2, h3, h4, h5]

/-- C2, amended: every record violating one of the five range checks is
rejected before any computation — the outcome is the same for every
calendar collaborator, the conversion call log is empty, and no pillar
data is produced — with an error whose message is the fixed string
naming the first offending field and its legal range (but not echoing
the offending value itself; see the counterexample). -/
theorem C2_range_validation (currentYear : ℤ) (b : BirthInfo)
    (lts lts' : ℤ → ℤ → ℤ → Except String (ℤ × ℤ × ℤ))
    (stp stp' : ℤ → ℤ → ℤ → SolarPillars)
    (hbad : ¬ ValidRanges currentYear b) :
    ∃ msg, (calculate_bazi currentYear lts stp b).1 = .error ("八字计算错误: " ++ msg) ∧
      msg ∈ ["年份必须在1900年至今之间", "月份必须在1-12之间", "日期必须在1-31之间",
             "纬度必须在-90到90度之间", "经度必须在-180到180度之间"] ∧
      calculate_bazi currentYear lts stp b = calculate_bazi currentYear lts' stp' b ∧
      (calculate_bazi currentYear lts stp b).2 = [] := by
  obtain ⟨msg, hval, hmem⟩ := validateBirth_error_of_invalid hbad
  refine ⟨msg, ?_, hmem, ?_, ?_⟩
  · unfold calculate_bazi
    rw [hval]
  · unfold calculate_bazi
    rw [hval]
  · unfold calculate_bazi
    rw [hval]

/-- Calendar collaborator whose lunar-to-solar conversion always fails,
for the error-propagation witnesses. -/
def ltsW : ℤ → ℤ → ℤ → Except String (ℤ × ℤ × ℤ) := fun _ _ _ => .error "no solar equivalent"

/-- Fixed pillar collaborator for the concrete calculator runs
(the pillars of 2000-06-03: 庚辰 year, 丙午 month, 戊申 day). -/
def stpW : ℤ → ℤ → ℤ → SolarPillars := fun _ _ _ => ⟨⟨6, 4⟩, ⟨2, 6⟩, ⟨4, 8⟩, "庚辰年五月初一"⟩

/-- A valid solar birth record at the reference meridian. -/
def bW : BirthInfo := ⟨2000, 6, 3, 12, 0, (39.9 : ℚ), BEIJING_LONGITUDE, false, "男"⟩

/-- The same record marked as lunar. -/
def bWl : BirthInfo := ⟨2000, 6, 3, 12, 0, (39.9 : ℚ), BEIJING_LONGITUDE, true, "男"⟩

/-- The record with the year out of range (1800). -/
def b1800 : BirthInfo := ⟨1800, 6, 3, 12, 0, (39.9 : ℚ), BEIJING_LONGITUDE, false, "男"⟩

/-- The record with a different out-of-range year (1801). -/
def b1801 : BirthInfo := ⟨1801, 6, 3, 12, 0, (39.9 : ℚ), BEIJING_LONGITUDE, false, "男"⟩

/-- C2 counterexample: the rejection message for an out-of-range year is
the fixed string `年份必须在1900年至今之间`; the records with offending
years 1800 and 1801 produce identical errors, so the error cannot carry
the offending value, contrary to the claim. -/
theorem C2_counterexample :
    (calculate_bazi 2026 ltsW stpW b1800).1 =
      .error "八字计算错误: 年份必须在1900年至今之间" ∧
    (calculate_bazi 2026 ltsW stpW b1801).1 = (calculate_bazi 2026 ltsW stpW b1800).1 := by
  have h1 : validateBirth 2026 b1800 = .error "年份必须在1900年至今之间" := by
    norm_num [validateBirth, b1800]
  have h2 : validateBirth 2026 b1801 = .error "年份必须在1900年至今之间" := by
    norm_num [validateBirth, b1801]
  constructor
  · unfold calculate_bazi
    rw [h1]
    rfl
  · unfold calculate_bazi
    rw [h1, h2]

/-- Witness for C2: the invalid-latitude record is rejected with the
latitude message, independently of the collaborators. -/
theorem C2_range_validation_witness :
    ∃ msg, (calculate_bazi 2026 ltsW stpW
        ⟨2000, 6, 3, 12, 0, 91, BEIJING_LONGITUDE, false, "男"⟩).1 =
      .error ("八字计算错误: " ++ msg) ∧
      msg ∈ ["年份必须在1900年至今之间", "月份必须在1-12之间", "日期必须在1-31之间",
             "纬度必须在-90到90度之间", "经度必须在-180到180度之间"] ∧
      calculate_bazi 2026 ltsW stpW ⟨2000, 6, 3, 12, 0, 91, BEIJING_LONGITUDE, false, "男"⟩ =
        calculate_bazi 2026 (fun _ _ _ => .ok (1, 1, 1)) (fun _ _ _ => ⟨⟨0, 0⟩, ⟨0, 0⟩, ⟨0, 0⟩, ""⟩)
          ⟨2000, 6, 3, 12, 0, 91, BEIJING_LONGITUDE, false, "男"⟩ ∧
      (calculate_bazi 2026 ltsW stpW ⟨2000, 6, 3, 12, 0, 91, BEIJING_LONGITUDE, false, "男"⟩).2 = [] :=
  C2_range_validation 2026 ⟨2000, 6, 3, 12, 0, 91, BEIJING_LONGITUDE, false, "男"⟩
    ltsW (fun _ _ _ => .ok (1, 1, 1)) stpW (fun _ _ _ => ⟨⟨0, 0⟩, ⟨0, 0⟩, ⟨0, 0⟩, ""⟩)
    (by norm_num [ValidRanges])

/-- C3: for a valid lunar record whose date has no solar equivalent, the
conversion failure propagates to the caller of `calculate_bazi` — the
collaborator's message is carried verbatim inside the wrapped error —
and the conversion is attempted exactly once (the call log is the single
triple), never retried. -/
theorem C3_lunar_conversion_error (currentYear : ℤ) (b : BirthInfo)
    (lts : ℤ → ℤ → ℤ → Except String (ℤ × ℤ × ℤ)) (stp : ℤ → ℤ → ℤ → SolarPillars)
    (e : String) (hv : ValidRanges currentYear b) (hl : b.is_lunar = true)
    (he : lts b.year b.month b.day = .error e) :
    calculate_bazi currentYear lts stp b =
      (.error ("八字计算错误: " ++ ("农历日期转换失败: " ++ e)),
        [(b.year, b.month, b.day)]) := by
  unfold calculate_bazi
  rw [validateBirth_ok hv]
  simp only [hl, if_true, convert_lunar_to_solar, he]

/-- Witness for C3: a concrete valid lunar record with a failing
conversion collaborator. -/
theorem C3_lunar_conversion_error_witness :
    calculate_bazi 2026 ltsW stpW bWl =
      (.error ("八字计算错误: " ++ ("农历日期转换失败: " ++ "no solar equivalent")),
        [(2000, 6, 3)]) :=
  C3_lunar_conversion_error 2026 bWl ltsW stpW "no solar equivalent"
    (by norm_num [ValidRanges, bWl, BEIJING_LONGITUDE]) rfl rfl

/-! ## Claims about the hour-stem rule -/

/-- C4 counterexample: at the zi hour (branch 0), five consecutive days
starting from day stem 0 do not reproduce the full ten-stem cycle — the
zi-hour stems are 0, 2, 4, 6, 8 and stem 1 never occurs. -/
theorem C4_counterexample :
    ¬ (∀ t : ℕ, t < 10 → ∃ s : ℕ, s < 5 ∧ hourStemIndex s 0 = t) := by
  decide

/-- C4, amended: in every successful `calculate_bazi` run the hour
pillar's stem is derived from the day pillar's stem by
`(day_stem × 2 + hour_branch) mod 10`; at branch 0 five consecutive days
starting from stem 0 yield the stems 0, 2, 4, 6, 8 (each even stem once,
not the full ten-stem cycle), while all ten stems do appear across the
twelve hour pillars of five consecutive days. -/
theorem C4_hour_stem (currentYear : ℤ)
    (lts : ℤ → ℤ → ℤ → Except String (ℤ × ℤ × ℤ)) (stp : ℤ → ℤ → ℤ → SolarPillars)
    (b : BirthInfo) (r : BaziResult) (log : List (ℤ × ℤ × ℤ))
    (hok : calculate_bazi currentYear lts stp b = (.ok r, log)) :
    (r.hour.stem = hourStemIndex r.day.stem r.hour.branch ∧
      r.hour.stem = (r.day.stem * 2 + r.hour.branch) % 10) ∧
    (List.range 5).map (fun s => hourStemIndex s 0) = [0, 2, 4, 6, 8] ∧
    (∀ t : ℕ, t < 10 → ∃ s : ℕ, s < 5 ∧ ∃ bb : ℕ, bb < 12 ∧ hourStemIndex s bb = t) := by
  refine ⟨?_, by decide, by decide⟩
  unfold calculate_bazi at hok
  cases hval : validateBirth currentYear b with
  | error e =>
    rw [hval] at hok
    simp at hok
  | ok u =>
    rw [hval] at hok
    cases hlun : b.is_lunar with
    | true =>
      simp only [hlun, if_true] at hok
      cases hconv : convert_lunar_to_solar lts b.year b.month b.day with
      | error e =>
        rw [hconv] at hok
        simp at hok
      | ok v =>
        obtain ⟨y, m, d⟩ := v
        rw [hconv] at hok
        simp only [Prod.mk.injEq, Except.ok.injEq] at hok
        rw [← hok.1]
        exact ⟨rfl, rfl⟩
    | false =>
      simp only [hlun, Bool.false_eq_true, if_false, Prod.mk.injEq, Except.ok.injEq] at hok
      rw [← hok.1]
      exact ⟨rfl, rfl⟩

/-- The pillar record of the concrete solar run used as witness. -/
def rW : BaziResult :=
  ⟨⟨6, 4⟩, ⟨2, 6⟩, ⟨4, 8⟩, ⟨4, 6⟩, (2000, 6, 3), "庚辰年五月初一", (12, 0)⟩

/-- Witness for C4: the concrete noon run at the reference meridian. -/
theorem C4_hour_stem_witness :
    (rW.hour.stem = hourStemIndex rW.day.stem rW.hour.branch ∧
      rW.hour.stem = (rW.day.stem * 2 + rW.hour.branch) % 10) ∧
    (List.range 5).map (fun s => hourStemIndex s 0) = [0, 2, 4, 6, 8] ∧
    (∀ t : ℕ, t < 10 → ∃ s : ℕ, s < 5 ∧ ∃ bb : ℕ, bb < 12 ∧ hourStemIndex s bb = t) :=
  C4_hour_stem 2026 ltsW stpW bW rW [] (by
    have hv : validateBirth 2026 bW = .ok () := by
      norm_num [validateBirth, bW, BEIJING_LONGITUDE]
    have h1 : localHM 12 0 BEIJING_LONGITUDE = (12, 0) := by
      norm_num [localHM, beijing_time_to_local_time, BEIJING_LONGITUDE]
      decide
    have h2 : get_gz_hour 12 0 = 6 := by
      norm_num [get_gz_hour, hourDecimal, hour_ranges, gzPred, List.find?]
    unfold calculate_bazi
    rw [hv]
    simp [bW, stpW, h1, h2, hourStemIndex, rW])

/-- Witness for C8: the invariant at the concrete corpus, token `"a"`,
identifier 1. -/
theorem C8_index_invariant_witness :
    (indexLookup ([docsX].foldl (add_documents segX) emptyKB).index "a").Sorted (· < ·) ∧
    (indexLookup ([docsX].foldl (add_documents segX) emptyKB).index "a").Nodup ∧
    (1 ∈ indexLookup ([docsX].foldl (add_documents segX) emptyKB).index "a" ↔
      ∃ d, ([docsX].foldl (add_documents segX) emptyKB).documents.get? 1 = some d ∧
        "a" ∈ segX d.content) :=
  C8_index_invariant segX [docsX] "a" 1

/-- Witness for C9: totality of `search` on the concrete corpus. -/
theorem C9_search_totality_witness :
    (∃ rs, search (add_documents segX emptyKB docsX) ["a"] 5 = .ok rs) ∧
    search (add_documents segX emptyKB []) ["a"] 5 = .ok [] ∧
    search (add_documents segX emptyKB docsX) [] 5 = .ok [] :=
  C9_search_totality segX docsX ["a"] 5

/-- Witness for C10: the composer on the concrete corpus. -/
theorem C10_compose_knowledge_witness :
    ∃ rs, search (add_documents segX emptyKB docsX)
        ((segX (buildQuery ⟨"庚辰", "丙午", "戊申", "庚申"⟩)).dedup) 5 = .ok rs ∧
      rs.length ≤ 5 ∧
      get_relevant_knowledge segX (add_documents segX emptyKB docsX)
          ⟨"庚辰", "丙午", "戊申", "庚申"⟩ =
        .ok (String.intercalate "\n\n" (rs.map fmtDoc)) ∧
      (rs = [] →
        get_relevant_knowledge segX (add_documents segX emptyKB docsX)
          ⟨"庚辰", "丙午", "戊申", "庚申"⟩ = .ok "") :=
  C10_compose_knowledge segX docsX ⟨"庚辰", "丙午", "戊申", "庚申"⟩

end SuanMing
